import Mathlib

/-!
Verification of the EvoArc conditional-compilation strippers.

The repository contains two Python line filters that remove
`#if os(macOS)` conditional-compilation blocks from Swift sources:

* `remove_macos_conditionals` (first version, `remove_macos_conditionals.py`)
* `remove_macos_blocks` (refined version, `remove_macos_conditionals_v2.py`),
  followed in `process_file` by a regex post-pass deleting `import AppKit`
  occurrences.

This file gives a shallow embedding of both filters and of the post-pass,
working over `List Char` for characters and `List (List Char)` for line
sequences, and proves or refutes the specification's claims about them.
-/

/-- Python's `\s` character class, restricted to its ASCII members
(space, tab, newline, carriage return, vertical tab, form feed). -/
def isPySpace (c : Char) : Bool :=
  c == ' ' || c == '\t' || c == '\n' || c == '\r' || c == '\x0b' || c == '\x0c'

/-- Strip a literal character sequence from the front of a character list,
returning the remainder on success. -/
def stripLit : List Char → List Char → Option (List Char)
  | [], cs => some cs
  | _ :: _, [] => none
  | p :: ps, c :: cs => if c = p then stripLit ps cs else none

/-- Literal `#if`. -/
def litIf : List Char := ['#', 'i', 'f']

/-- Literal `#elseif`. -/
def litElseif : List Char := ['#', 'e', 'l', 's', 'e', 'i', 'f']

/-- Literal `#else`. -/
def litElse : List Char := ['#', 'e', 'l', 's', 'e']

/-- Literal `#endif`. -/
def litEndif : List Char := ['#', 'e', 'n', 'd', 'i', 'f']

/-- Literal `os(macOS)`. -/
def litOsMacOS : List Char := ['o', 's', '(', 'm', 'a', 'c', 'O', 'S', ')']

/-- Literal `os(iOS)`. -/
def litOsIOS : List Char := ['o', 's', '(', 'i', 'O', 'S', ')']

/-- Literal `!os(macOS)`. -/
def litNotOsMacOS : List Char := ['!', 'o', 's', '(', 'm', 'a', 'c', 'O', 'S', ')']

/-- Literal `import`. -/
def litImport : List Char := ['i', 'm', 'p', 'o', 'r', 't']

/-- Literal `AppKit`. -/
def litAppKit : List Char := ['A', 'p', 'p', 'K', 'i', 't']

/-- Match `^\s*LIT` as a prefix of a line: drop leading whitespace and
strip the literal, returning the remainder. -/
def matchAfterWs (lit l : List Char) : Option (List Char) :=
  stripLit lit (l.dropWhile isPySpace)

/-- Match `\s+LIT` as a prefix of `r`: at least one whitespace character
followed (after the whitespace run) by the literal.  Faithful to the greedy
regex because the literals used start with a non-whitespace character. -/
def wsThenLit (lit r : List Char) : Bool :=
  match r with
  | [] => false
  | c :: _ => isPySpace c && (stripLit lit (r.dropWhile isPySpace)).isSome

/-- Regex `^\s*#if\s+os\(macOS\)` (prefix match, as `re.match`). -/
def reIfMacOS (l : List Char) : Bool :=
  match matchAfterWs litIf l with
  | some r => wsThenLit litOsMacOS r
  | none => false

/-- Regex `^\s*#if\s+os\(iOS\)` (prefix match). -/
def reIfIOS (l : List Char) : Bool :=
  match matchAfterWs litIf l with
  | some r => wsThenLit litOsIOS r
  | none => false

/-- Regex `^\s*#if\s+!os\(macOS\)` (prefix match, used by the first
implementation). -/
def reIfNotMacOS (l : List Char) : Bool :=
  match matchAfterWs litIf l with
  | some r => wsThenLit litNotOsMacOS r
  | none => false

/-- Regex `^\s*#if` (prefix match). -/
def reIfAny (l : List Char) : Bool :=
  (matchAfterWs litIf l).isSome

/-- Regex `^\s*#elseif` (prefix match). -/
def reElseifAny (l : List Char) : Bool :=
  (matchAfterWs litElseif l).isSome

/-- Regex `^\s*#elseif\s+os\(macOS\)` (prefix match). -/
def reElseifMacOS (l : List Char) : Bool :=
  match matchAfterWs litElseif l with
  | some r => wsThenLit litOsMacOS r
  | none => false

/-- Regex `^\s*#else\s*$` (the whole line is whitespace, `#else`,
whitespace). -/
def reElse (l : List Char) : Bool :=
  match matchAfterWs litElse l with
  | some r => r.all isPySpace
  | none => false

/-- Regex `^\s*#endif` (prefix match, as used by the refined version). -/
def reEndif (l : List Char) : Bool :=
  (matchAfterWs litEndif l).isSome

/-- Regex `^\s*#endif\s*$` (full-line match, as used by the first
version's dedicated `#endif` check). -/
def reEndifFull (l : List Char) : Bool :=
  match matchAfterWs litEndif l with
  | some r => r.all isPySpace
  | none => false

/-- A line matching any conditional-compilation directive pattern: leading
token `#if`, `#elseif`, `#else` or `#endif` after optional whitespace. -/
def isDirectiveLine (l : List Char) : Bool :=
  reIfAny l || reElseifAny l || reElse l || reEndif l

/-- Python's `content.split('\n')` on a character list: the list of
newline-separated pieces (always nonempty, pieces contain no newline). -/
def splitNl : List Char → List (List Char)
  | [] => [[]]
  | c :: cs =>
    match splitNl cs with
    | [] => [[]]
    | p :: ps => if c = '\n' then [] :: p :: ps else (c :: p) :: ps

/-- Python's `'\n'.join(pieces)` on character lists. -/
def joinNl : List (List Char) → List Char
  | [] => []
  | [p] => p
  | p :: q :: ps => p ++ '\n' :: joinNl (q :: ps)

/-- One step of the refined filter `remove_macos_blocks` (v2): given the
skip counter `sk`, the guard stack, and the current line, return the
emitted lines (empty or a singleton) and the new state.  This mirrors the
body of the `while` loop of `remove_macos_blocks` check for check. -/
def stepV2 (sk : Nat) (stack : List String) (l : List Char) :
    List (List Char) × Nat × List String :=
  if reIfMacOS l then ([], sk + 1, stack)
  else if 0 < sk then
    ([], if reIfAny l then sk + 1 else if reEndif l then sk - 1 else sk, stack)
  else if reIfIOS l then ([], sk, "ios" :: stack)
  else if reElseifMacOS l then
    ([], if stack.head? = some "ios" then 1 else sk, stack)
  else if reElse l then
    ([], if stack.head? = some "ios" then 1 else sk, stack)
  else if reEndif l then
    ([], sk, if stack.head? = some "ios" then stack.tail else stack)
  else ([l], sk, stack)

/-- Run the refined filter's state machine over a list of lines from an
initial state, returning the emitted lines and the final state. -/
def runV2 : Nat → List String → List (List Char) → List (List Char) × Nat × List String
  | sk, stack, [] => ([], sk, stack)
  | sk, stack, l :: ls =>
    let s := stepV2 sk stack l
    let rest := runV2 s.2.1 s.2.2 ls
    (s.1 ++ rest.1, rest.2)

/-- The refined filter `remove_macos_blocks` of
`remove_macos_conditionals_v2.py`: split on newlines, run the state
machine from skip counter 0 and empty stack, and join the emitted lines. -/
def remove_macos_blocks (s : String) : String :=
  String.mk (joinNl (runV2 0 [] (splitNl s.data)).1)

/-- One step of the first filter `remove_macos_conditionals` (v1).  The
state is the skip depth, the `in_ios_block` flag and the iOS depth.  The
Python loop body falls through to the final `if skip_depth == 0:
result.append(line)` whenever no `continue` fired; the guards below encode
exactly the conditions under which a `continue` fires. -/
def stepV1 (sk : Nat) (inIos : Bool) (iosd : Nat) (l : List Char) :
    List (List Char) × Nat × Bool × Nat :=
  if reIfMacOS l then ([], sk + 1, inIos, iosd)
  else if reIfIOS l then ([], sk, true, iosd + 1)
  else if reIfNotMacOS l then ([], sk, inIos, iosd)
  else if reElse l && (decide (0 < sk) || inIos) then
    if 0 < sk then ([], sk, inIos, iosd) else ([], sk + 1, inIos, iosd)
  else if reEndifFull l && (decide (0 < sk) || (inIos && decide (0 < iosd))) then
    if 0 < sk then ([], sk - 1, inIos, iosd)
    else ([], sk, if iosd - 1 = 0 then false else inIos, iosd - 1)
  else ((if sk = 0 then [l] else []), sk, inIos, iosd)

/-- Run the first filter's state machine over a list of lines. -/
def runV1 : Nat → Bool → Nat → List (List Char) → List (List Char) × Nat × Bool × Nat
  | sk, inIos, iosd, [] => ([], sk, inIos, iosd)
  | sk, inIos, iosd, l :: ls =>
    let s := stepV1 sk inIos iosd l
    let rest := runV1 s.2.1 s.2.2.1 s.2.2.2 ls
    (s.1 ++ rest.1, rest.2)

/-- The first filter `remove_macos_conditionals` of
`remove_macos_conditionals.py`. -/
def remove_macos_conditionals (s : String) : String :=
  String.mk (joinNl (runV1 0 false 0 (splitNl s.data)).1)

/-- Attempt to match the regex `import\s+AppKit\s*\n` at the head of a
character list, returning the remainder after the match.  `\s+` and `\s*`
are greedy; since `AppKit` starts with a non-whitespace character the
`\s+` part is the whole whitespace run, and the backtracking of `\s*\n`
makes the match extend to the last newline of the whitespace run
following `AppKit` (failing when that run contains no newline). -/
def matchImportAt (cs : List Char) : Option (List Char) :=
  match stripLit litImport cs with
  | none => none
  | some r1 =>
    match r1 with
    | [] => none
    | c :: _ =>
      if isPySpace c then
        match stripLit litAppKit (r1.dropWhile isPySpace) with
        | none => none
        | some r2 =>
          let run := r2.takeWhile isPySpace
          let keep := (run.reverse.dropWhile fun d => !decide (d = '\n')).length
          if keep = 0 then none else some (r2.drop keep)
      else none

/-- Fuelled scan of `re.sub(r'import\s+AppKit\s*\n', '', content)`:
advance one character on failure to match, jump past the match on
success.  The fuel is always invoked as the length of the list, which
suffices because every step consumes at least one character. -/
def subImportAux : Nat → List Char → List Char
  | 0, cs => cs
  | Nat.succ _, [] => []
  | Nat.succ f, c :: cs =>
    match matchImportAt (c :: cs) with
    | some rest => subImportAux f rest
    | none => c :: subImportAux f cs

/-- The substitution `re.sub(r'import\s+AppKit\s*\n', '', content)` on a
character list. -/
def subRun (cs : List Char) : List Char :=
  subImportAux cs.length cs

/-- The orphaned-import post-pass of `process_file` in
`remove_macos_conditionals_v2.py`. -/
def postPass (s : String) : String :=
  String.mk (subRun s.data)

/-- The pure content transformation performed by `process_file` of
`remove_macos_conditionals_v2.py`: the refined line filter followed by
the orphaned-import post-pass. -/
def processContent (s : String) : String :=
  postPass (remove_macos_blocks s)

theorem stripLit_eq_append {p x r : List Char} (h : stripLit p x = some r) :
    x = p ++ r := by
  induction p generalizing x with
  | nil =>
    simp only [stripLit, Option.some.injEq] at h
    simp [h]
  | cons a p ih =>
    cases x with
    | nil => simp [stripLit] at h
    | cons c cs =>
      simp only [stripLit] at h
      by_cases hc : c = a
      · rw [if_pos hc] at h
        subst hc
        simpa using ih h
      · rw [if_neg hc] at h
        exact absurd h (by simp)

theorem stepV2_out_eq (sk : Nat) (stack : List String) (l : List Char) :
    (stepV2 sk stack l).1 = [] ∨
      ((stepV2 sk stack l).1 = [l] ∧ reIfMacOS l = false ∧ reIfIOS l = false ∧
        reElseifMacOS l = false ∧ reElse l = false ∧ reEndif l = false) := by
  unfold stepV2
  split_ifs with h1 h2 h3 h4 h5 h6 <;>
    simp_all

theorem runV2_cons (sk : Nat) (stack : List String) (l : List Char)
    (ls : List (List Char)) :
    runV2 sk stack (l :: ls) =
      ((stepV2 sk stack l).1 ++
        (runV2 (stepV2 sk stack l).2.1 (stepV2 sk stack l).2.2 ls).1,
       (runV2 (stepV2 sk stack l).2.1 (stepV2 sk stack l).2.2 ls).2) := by
  rfl

/-- Every line the refined state machine emits fails all five regexes the
machine recognizes, from any starting state. -/
theorem runV2_out_clean (ls : List (List Char)) :
    ∀ sk stack l, l ∈ (runV2 sk stack ls).1 →
      reIfMacOS l = false ∧ reIfIOS l = false ∧ reElseifMacOS l = false ∧
        reElse l = false ∧ reEndif l = false := by
  induction ls with
  | nil => intro sk stack l h; simp [runV2] at h
  | cons a ls ih =>
    intro sk stack l h
    rw [runV2_cons] at h
    rcases List.mem_append.mp h with h | h
    · rcases stepV2_out_eq sk stack a with h0 | ⟨h0, h5⟩
      · rw [h0] at h; simp at h
      · rw [h0] at h
        simp only [List.mem_singleton] at h
        subst h
        exact h5
    · exact ih _ _ _ h

/-- The emitted lines of the refined state machine form a sublist of the
input lines. -/
theorem runV2_out_sublist (ls : List (List Char)) :
    ∀ sk stack, List.Sublist (runV2 sk stack ls).1 ls := by
  induction ls with
  | nil => intro sk stack; simp [runV2]
  | cons a ls ih =>
    intro sk stack
    rw [runV2_cons]
    rcases stepV2_out_eq sk stack a with h0 | ⟨h0, _⟩
    · rw [h0]
      exact List.Sublist.cons a (ih _ _)
    · rw [h0]
      exact List.Sublist.cons₂ a (ih _ _)

/-- A line failing all five recognized regexes passes through the refined
state machine unchanged at skip 0 and empty stack. -/
theorem runV2_id_of_clean (ls : List (List Char))
    (h : ∀ l ∈ ls, reIfMacOS l = false ∧ reIfIOS l = false ∧
      reElseifMacOS l = false ∧ reElse l = false ∧ reEndif l = false) :
    runV2 0 [] ls = (ls, 0, []) := by
  induction ls with
  | nil => rfl
  | cons a ls ih =>
    obtain ⟨h1, h2, h3, h4, h5⟩ := h a (by simp)
    have hstep : stepV2 0 [] a = ([a], 0, []) := by
      unfold stepV2
      simp [h1, h2, h3, h4, h5]
    rw [runV2_cons, hstep]
    rw [ih fun l hl => h l (by simp [hl])]
    rfl

/-- Equation for `splitNl` on a cons cell, phrased through the (always
successful) decomposition of the recursive call. -/
theorem splitNl_cons_eq {c : Char} {cs p : List Char} {ps : List (List Char)}
    (hp : splitNl cs = p :: ps) :
    splitNl (c :: cs) = if c = '\n' then [] :: p :: ps else (c :: p) :: ps := by
  simp only [splitNl, hp]

/-- `splitNl` never returns the empty list. -/
theorem splitNl_ne_nil (cs : List Char) : splitNl cs ≠ [] := by
  cases cs with
  | nil => simp [splitNl]
  | cons c cs =>
    simp only [splitNl]
    rcases hp : splitNl cs with _ | ⟨p, ps⟩
    · simp
    · by_cases hc : c = '\n' <;> simp [hc]

/-- Pieces produced by `splitNl` contain no newline character. -/
theorem splitNl_no_nl (cs : List Char) :
    ∀ l ∈ splitNl cs, '\n' ∉ l := by
  induction cs with
  | nil => intro l hl; simp [splitNl] at hl; simp [hl]
  | cons c cs ih =>
    intro l hl
    rcases hp : splitNl cs with _ | ⟨p, ps⟩
    · exact absurd hp (splitNl_ne_nil cs)
    · rw [splitNl_cons_eq hp] at hl
      by_cases hc : c = '\n'
      · rw [if_pos hc] at hl
        rcases List.mem_cons.mp hl with h | h
        · simp [h]
        · exact ih l (hp ▸ h)
      · rw [if_neg hc] at hl
        rcases List.mem_cons.mp hl with h | h
        · subst h
          intro hmem
          rcases List.mem_cons.mp hmem with h | h
          · exact hc h.symm
          · exact ih p (by simp [hp]) h
        · exact ih l (by simp [hp, h])

/-- Splitting a newline-free piece yields just that piece. -/
theorem splitNl_of_no_nl (p : List Char) (hp : '\n' ∉ p) :
    splitNl p = [p] := by
  induction p with
  | nil => rfl
  | cons c cs ih =>
    have hc : c ≠ '\n' := fun h => hp (by simp [h])
    have hcs : '\n' ∉ cs := fun h => hp (by simp [h])
    rw [splitNl_cons_eq (ih hcs), if_neg hc]

/-- Splitting a newline-free piece followed by a newline peels off that
piece. -/
theorem splitNl_append_nl (p rest : List Char) (hp : '\n' ∉ p) :
    splitNl (p ++ '\n' :: rest) = p :: splitNl rest := by
  induction p with
  | nil =>
    rcases hr : splitNl rest with _ | ⟨q, qs⟩
    · exact absurd hr (splitNl_ne_nil rest)
    · rw [List.nil_append, splitNl_cons_eq hr]
      simp
  | cons c cs ih =>
    have hc : c ≠ '\n' := fun h => hp (by simp [h])
    have hcs : '\n' ∉ cs := fun h => hp (by simp [h])
    rw [List.cons_append, splitNl_cons_eq (ih hcs), if_neg hc]

/-- Splitting the join of a nonempty list of newline-free pieces recovers
the pieces. -/
theorem splitNl_joinNl (ps : List (List Char)) (hne : ps ≠ [])
    (h : ∀ p ∈ ps, '\n' ∉ p) : splitNl (joinNl ps) = ps := by
  induction ps with
  | nil => exact absurd rfl hne
  | cons p ps ih =>
    cases ps with
    | nil =>
      simp only [joinNl]
      exact splitNl_of_no_nl p (h p (by simp))
    | cons q qs =>
      simp only [joinNl]
      rw [splitNl_append_nl p _ (h p (by simp))]
      rw [ih (by simp) fun l hl => h l (by simp [hl])]

/-- Character-level statement of the idempotence of the refined line
filter: running the state machine a second time over its own joined
output changes nothing. -/
theorem runV2_join_idem (cs : List Char) :
    joinNl (runV2 0 [] (splitNl (joinNl (runV2 0 [] (splitNl cs)).1))).1 =
      joinNl (runV2 0 [] (splitNl cs)).1 := by
  by_cases hne : (runV2 0 [] (splitNl cs)).1 = []
  · rw [hne]
    decide
  · rw [splitNl_joinNl _ hne
        (fun l hl => splitNl_no_nl cs l ((runV2_out_sublist _ 0 []).subset hl)),
      runV2_id_of_clean _ (fun l hl => runV2_out_clean _ 0 [] l hl)]

/-- A line matching `^\s*#if\s+os\(macOS\)` also matches `^\s*#if`. -/
theorem reIfAny_of_reIfMacOS {l : List Char} (h : reIfMacOS l = true) :
    reIfAny l = true := by
  unfold reIfMacOS at h
  unfold reIfAny
  rcases hm : matchAfterWs litIf l with _ | r
  · rw [hm] at h
    simp at h
  · rfl

/-- Inside a skipped region the refined step emits nothing and only
adjusts the skip counter: any `#if` variant deepens it by one, `#endif`
shallows it by one, and every other line leaves it alone. -/
theorem stepV2_skip (sk : Nat) (stack : List String) (l : List Char)
    (hsk : 0 < sk) :
    stepV2 sk stack l =
      ([], if reIfAny l then sk + 1 else if reEndif l then sk - 1 else sk,
        stack) := by
  unfold stepV2
  by_cases h1 : reIfMacOS l
  · rw [if_pos h1]
    simp [reIfAny_of_reIfMacOS h1]
  · rw [if_neg h1, if_pos hsk]

/-- Unpack a successful `^\s*LIT` prefix match into an equation on the
whitespace-stripped line. -/
theorem matchAfterWs_eq {lit l r : List Char} (h : matchAfterWs lit l = some r) :
    l.dropWhile isPySpace = lit ++ r := by
  unfold matchAfterWs at h
  exact stripLit_eq_append h

/-- C9: a stray `#else`, `#elseif os(macOS)` or `#endif` line visited at
skip counter 0 with an empty guard stack is silently dropped: the refined
step emits nothing and leaves the state unchanged (the filter is total,
so no error is raised on such unbalanced input). -/
theorem c9_stray_directive_silently_dropped (l : List Char)
    (h : reElseifMacOS l = true ∨ reElse l = true ∨ reEndif l = true) :
    stepV2 0 [] l = ([], 0, []) := by
  rcases h with h | h | h
  · rcases hm : matchAfterWs litElseif l with _ | r
    · exfalso
      unfold reElseifMacOS at h
      rw [hm] at h
      simp at h
    · have hx := matchAfterWs_eq hm
      have h1 : reIfMacOS l = false := by
        unfold reIfMacOS matchAfterWs
        rw [hx]
        simp [stripLit, litIf, litElseif]
      have h2 : reIfIOS l = false := by
        unfold reIfIOS matchAfterWs
        rw [hx]
        simp [stripLit, litIf, litElseif]
      simp [stepV2, h, h1, h2]
  · rcases hm : matchAfterWs litElse l with _ | r
    · exfalso
      unfold reElse at h
      rw [hm] at h
      simp at h
    · have hall : r.all isPySpace = true := by
        unfold reElse at h
        rw [hm] at h
        exact h
      have hx := matchAfterWs_eq hm
      have h1 : reIfMacOS l = false := by
        unfold reIfMacOS matchAfterWs
        rw [hx]
        simp [stripLit, litIf, litElse]
      have h2 : reIfIOS l = false := by
        unfold reIfIOS matchAfterWs
        rw [hx]
        simp [stripLit, litIf, litElse]
      have h3 : reElseifMacOS l = false := by
        unfold reElseifMacOS matchAfterWs
        rw [hx]
        rcases r with _ | ⟨c, cs⟩
        · simp [stripLit, litElse, litElseif]
        · have hc : isPySpace c = true := by
            simp [List.all_cons] at hall
            exact hall.1
          have hci : c ≠ 'i' := by
            intro he
            rw [he] at hc
            exact absurd hc (by decide)
          simp [stripLit, litElse, litElseif, hci]
      simp [stepV2, h, h1, h2, h3]
  · rcases hm : matchAfterWs litEndif l with _ | r
    · exfalso
      unfold reEndif at h
      rw [hm] at h
      simp at h
    · have hx := matchAfterWs_eq hm
      have h1 : reIfMacOS l = false := by
        unfold reIfMacOS matchAfterWs
        rw [hx]
        simp [stripLit, litIf, litEndif]
      have h2 : reIfIOS l = false := by
        unfold reIfIOS matchAfterWs
        rw [hx]
        simp [stripLit, litIf, litEndif]
      have h3 : reElseifMacOS l = false := by
        unfold reElseifMacOS matchAfterWs
        rw [hx]
        simp [stripLit, litElseif, litEndif]
      have h4 : reElse l = false := by
        unfold reElse matchAfterWs
        rw [hx]
        simp [stripLit, litElse, litEndif]
      simp [stepV2, h, h1, h2, h3, h4]

theorem length_dropWhile_le (p : Char → Bool) (l : List Char) :
    (l.dropWhile p).length ≤ l.length := by
  induction l with
  | nil => simp [List.dropWhile]
  | cons a l ih =>
    by_cases h : p a
    · simp only [List.dropWhile, h, List.length_cons]
      omega
    · simp [List.dropWhile, h]

/-- A successful match of `import\s+AppKit\s*\n` consumes at least one
character. -/
theorem matchImportAt_lt {cs rest : List Char}
    (h : matchImportAt cs = some rest) : rest.length < cs.length := by
  unfold matchImportAt at h
  rcases h1 : stripLit litImport cs with _ | r1
  · rw [h1] at h
    simp at h
  · rw [h1] at h
    dsimp only at h
    have hcs : cs = litImport ++ r1 := stripLit_eq_append h1
    rcases r1 with _ | ⟨c, cs1⟩
    · simp at h
    · dsimp only at h
      by_cases hc : isPySpace c
      · rw [if_pos hc] at h
        rcases h2 : stripLit litAppKit ((c :: cs1).dropWhile isPySpace) with _ | r2
        · rw [h2] at h
          simp at h
        · rw [h2] at h
          have hdw : (c :: cs1).dropWhile isPySpace = litAppKit ++ r2 :=
            stripLit_eq_append h2
          have hdwlen : ((c :: cs1).dropWhile isPySpace).length ≤ (c :: cs1).length :=
            length_dropWhile_le _ _
          dsimp only at h
          split_ifs at h with hkeep
          simp only [Option.some.injEq] at h
          have hrl : rest.length ≤ r2.length := by
            rw [← h]
            simp [List.length_drop]
          have h6 : cs.length = litImport.length + (c :: cs1).length := by
            rw [hcs]
            simp
          have h7 : (litAppKit ++ r2).length = litAppKit.length + r2.length := by
            simp
          rw [hdw] at hdwlen
          rw [h7] at hdwlen
          have hi : litImport.length = 6 := by decide
          have ha : litAppKit.length = 6 := by decide
          simp only [List.length_cons] at h6 hdwlen
          omega
      · rw [if_neg hc] at h
        simp at h

/-- The fuelled scan does not depend on the fuel once the fuel covers the
length of the list. -/
theorem subImportAux_fuel (f : Nat) :
    ∀ (g : Nat) (cs : List Char), cs.length ≤ f → cs.length ≤ g →
      subImportAux f cs = subImportAux g cs := by
  induction f with
  | zero =>
    intro g cs hf _
    have : cs = [] := List.eq_nil_of_length_eq_zero (Nat.le_zero.mp hf)
    subst this
    cases g <;> rfl
  | succ f ih =>
    intro g cs hf hg
    cases cs with
    | nil => cases g <;> rfl
    | cons c cs =>
      cases g with
      | zero => simp at hg
      | succ g =>
        simp only [subImportAux]
        rcases hm : matchImportAt (c :: cs) with _ | rest
        · dsimp only
          have hlen : cs.length ≤ f := by
            simp only [List.length_cons] at hf
            omega
          have hlen' : cs.length ≤ g := by
            simp only [List.length_cons] at hg
            omega
          rw [ih g cs hlen hlen']
        · dsimp only
          have hlt := matchImportAt_lt hm
          simp only [List.length_cons] at hlt hf hg
          exact ih g rest (by omega) (by omega)

/-- The scan on the empty list returns the empty list, whatever the fuel. -/
theorem subImportAux_nil (f : Nat) : subImportAux f [] = [] := by
  cases f <;> rfl

/-- Scan step when no match fires at the head. -/
theorem subRun_cons_none {c : Char} {cs : List Char}
    (h : matchImportAt (c :: cs) = none) : subRun (c :: cs) = c :: subRun cs := by
  unfold subRun
  simp only [List.length_cons, subImportAux, h]

/-- Scan step when a match fires at the head: jump past the match. -/
theorem subRun_cons_some {c : Char} {cs rest : List Char}
    (h : matchImportAt (c :: cs) = some rest) : subRun (c :: cs) = subRun rest := by
  unfold subRun
  simp only [List.length_cons, subImportAux, h]
  have hlt := matchImportAt_lt h
  simp only [List.length_cons] at hlt
  exact subImportAux_fuel cs.length rest.length rest (by omega) (le_refl _)

/-- No match can start at a character other than `i`. -/
theorem matchImportAt_none_of_ne {c : Char} (cs : List Char) (h : c ≠ 'i') :
    matchImportAt (c :: cs) = none := by
  unfold matchImportAt
  simp [stripLit, litImport, h]

/-- The scan copies a segment containing no `i` verbatim. -/
theorem subRun_noI_append (u : List Char) :
    ∀ v : List Char, (∀ c ∈ u, c ≠ 'i') → subRun (u ++ v) = u ++ subRun v := by
  induction u with
  | nil => intro v _; rfl
  | cons c u ih =>
    intro v h
    have hc : c ≠ 'i' := h c (by simp)
    rw [List.cons_append,
      subRun_cons_none (matchImportAt_none_of_ne _ hc),
      ih v fun d hd => h d (by simp [hd])]
    rfl

/-- The scan is the identity on text containing no `i`. -/
theorem subRun_id_of_noI (w : List Char) (h : ∀ c ∈ w, c ≠ 'i') :
    subRun w = w := by
  have := subRun_noI_append w [] h
  simpa [subRun, subImportAux] using this

/-- Stripping a literal from itself followed by a remainder succeeds with
that remainder. -/
theorem stripLit_self_append (p : List Char) :
    ∀ r : List Char, stripLit p (p ++ r) = some r := by
  induction p with
  | nil => intro r; rfl
  | cons a p ih => intro r; simp [stripLit, ih]

/-- Dropping while over an append whose first part wholly satisfies the
predicate skips that part. -/
theorem dropWhile_append_all (p : Char → Bool) :
    ∀ a b : List Char, a.all p = true →
      List.dropWhile p (a ++ b) = List.dropWhile p b := by
  intro a
  induction a with
  | nil => intro b _; rfl
  | cons c a ih =>
    intro b h
    rw [List.all_cons, Bool.and_eq_true] at h
    rw [List.cons_append, List.dropWhile_cons, if_pos h.1, ih b h.2]

/-- Taking while over an append whose first part wholly satisfies the
predicate keeps that part. -/
theorem takeWhile_append_all (p : Char → Bool) :
    ∀ a b : List Char, a.all p = true →
      List.takeWhile p (a ++ b) = a ++ List.takeWhile p b := by
  intro a
  induction a with
  | nil => intro b _; rfl
  | cons c a ih =>
    intro b h
    rw [List.all_cons, Bool.and_eq_true] at h
    rw [List.cons_append, List.takeWhile_cons, if_pos h.1, ih b h.2,
      List.cons_append]

/-- General shape of a successful import-regex match: `import`, a
nonempty whitespace run, `AppKit`, then whitespace and a newline such
that the newline is the last one of the following whitespace run (the
leading whitespace of `v` contains no newline).  The match consumes
everything up to and including that newline. -/
theorem matchImportAt_occurrence (w1 w2 v : List Char) (hne : w1 ≠ [])
    (h1 : w1.all isPySpace = true) (h2 : w2.all isPySpace = true)
    (hv : ∀ c ∈ v.takeWhile isPySpace, c ≠ '\n') :
    matchImportAt (litImport ++ (w1 ++ (litAppKit ++ (w2 ++ '\n' :: v)))) =
      some v := by
  unfold matchImportAt
  rw [stripLit_self_append]
  rcases w1 with _ | ⟨c, w1'⟩
  · exact absurd rfl hne
  · have hc : isPySpace c = true ∧ w1'.all isPySpace = true := by
      simpa [List.all_cons] using h1
    rw [List.cons_append]
    dsimp only
    rw [if_pos hc.1]
    have hdw : List.dropWhile isPySpace
        (c :: (w1' ++ (litAppKit ++ (w2 ++ '\n' :: v)))) =
          litAppKit ++ (w2 ++ '\n' :: v) := by
      rw [show c :: (w1' ++ (litAppKit ++ (w2 ++ '\n' :: v))) =
        (c :: w1') ++ (litAppKit ++ (w2 ++ '\n' :: v)) from rfl]
      rw [dropWhile_append_all _ _ _ h1]
      rw [show litAppKit ++ (w2 ++ '\n' :: v) =
        'A' :: (['p', 'p', 'K', 'i', 't'] ++ (w2 ++ '\n' :: v)) from rfl]
      rw [List.dropWhile_cons, if_neg (by decide)]
    rw [hdw, stripLit_self_append]
    dsimp only
    have hrun : List.takeWhile isPySpace (w2 ++ '\n' :: v) =
        w2 ++ '\n' :: v.takeWhile isPySpace := by
      rw [takeWhile_append_all _ _ _ h2, List.takeWhile_cons,
        if_pos (by decide)]
    rw [hrun]
    have hrev : (w2 ++ '\n' :: v.takeWhile isPySpace).reverse =
        (v.takeWhile isPySpace).reverse ++ '\n' :: w2.reverse := by
      simp
    rw [hrev]
    have hdrop2 : List.dropWhile (fun d => !decide (d = '\n'))
        ((v.takeWhile isPySpace).reverse ++ '\n' :: w2.reverse) =
          '\n' :: w2.reverse := by
      rw [dropWhile_append_all _ _ _ (by
        rw [List.all_eq_true]
        intro x hx
        simp [hv x (List.mem_reverse.mp hx)])]
      rw [List.dropWhile_cons, if_neg (by decide)]
    rw [hdrop2]
    rw [show ('\n' :: w2.reverse).length = w2.length + 1 from by simp]
    rw [if_neg (by omega)]
    congr 1
    rw [List.append_cons,
      show w2.length + 1 = (w2 ++ ['\n']).length from by simp]
    exact List.drop_left _ _

/-- Leftmost-occurrence law of the scan: if no match starts inside `u`
and a match fires right after `u` with remainder `v`, the scan copies
`u`, deletes the matched text, and continues on `v`. -/
theorem subRun_skip_prefix (rest v : List Char)
    (hm : matchImportAt rest = some v) :
    ∀ u : List Char,
      (∀ i ∈ List.range u.length, matchImportAt (u.drop i ++ rest) = none) →
        subRun (u ++ rest) = u ++ subRun v := by
  intro u
  induction u with
  | nil =>
    intro _
    rcases rest with _ | ⟨c, cs⟩
    · simp [matchImportAt, stripLit, litImport] at hm
    · rw [List.nil_append, subRun_cons_some hm, List.nil_append]
  | cons c u' ih =>
    intro hu
    have h0 : matchImportAt (c :: (u' ++ rest)) = none := by
      have := hu 0 (by simp)
      simpa using this
    rw [List.cons_append, subRun_cons_none h0]
    rw [ih fun i hi => by
      have hmem : i + 1 ∈ List.range (c :: u').length := by
        simp only [List.mem_range, List.length_cons] at hi ⊢
        omega
      have := hu (i + 1) hmem
      simpa [List.drop_succ_cons] using this]
    rfl

theorem runV1_cons (sk : Nat) (ios : Bool) (iosd : Nat) (l : List Char)
    (ls : List (List Char)) :
    runV1 sk ios iosd (l :: ls) =
      ((stepV1 sk ios iosd l).1 ++
        (runV1 (stepV1 sk ios iosd l).2.1 (stepV1 sk ios iosd l).2.2.1
          (stepV1 sk ios iosd l).2.2.2 ls).1,
       (runV1 (stepV1 sk ios iosd l).2.1 (stepV1 sk ios iosd l).2.2.1
          (stepV1 sk ios iosd l).2.2.2 ls).2) := by
  rfl

theorem stepV1_out_eq (sk : Nat) (ios : Bool) (iosd : Nat) (l : List Char) :
    (stepV1 sk ios iosd l).1 = [] ∨
      ((stepV1 sk ios iosd l).1 = [l] ∧ reIfNotMacOS l = false) := by
  unfold stepV1
  split_ifs <;> simp_all

/-- The first filter never emits a line matching `^\s*#if\s+!os\(macOS\)`:
such lines are always consumed by their dedicated branch. -/
theorem runV1_out_no_ifNotMacOS (ls : List (List Char)) :
    ∀ sk ios iosd l, l ∈ (runV1 sk ios iosd ls).1 → reIfNotMacOS l = false := by
  induction ls with
  | nil => intro sk ios iosd l h; simp [runV1] at h
  | cons a ls ih =>
    intro sk ios iosd l h
    rw [runV1_cons] at h
    rcases List.mem_append.mp h with h | h
    · rcases stepV1_out_eq sk ios iosd a with h0 | ⟨h0, h5⟩
      · rw [h0] at h; simp at h
      · rw [h0] at h
        simp only [List.mem_singleton] at h
        subst h
        exact h5
    · exact ih _ _ _ _ h


/-- C1 (counterexample): on the six-line input guarded by `os(watchOS)`
the filter's output is not the three lines `D`, `E`, `B` claimed by the
specification. -/
theorem c1_counterexample :
    processContent "#if os(watchOS)\nD\n#else\nE\n#endif\nB" ≠ "D\nE\nB" := by
  decide

/-- C1 (amended): on the six-line `os(watchOS)` input the filter keeps
both branch bodies and drops the `#else` and `#endif` lines, but emits
the opening `#if os(watchOS)` directive verbatim, because only
`os(macOS)` and `os(iOS)` guards are recognized outside a skipped
region. -/
theorem c1_amended :
    processContent "#if os(watchOS)\nD\n#else\nE\n#endif\nB" =
      "#if os(watchOS)\nD\nE\nB" := by
  decide

/-- C2 (code-bug evidence): on the well-formed input
`#if os(iOS)`, `A`, `#else`, `C`, `#endif` the refined state machine
terminates with skip counter 0 but a non-empty guard stack: the `#endif`
closing a skipped `#else` branch is consumed by the skip branch and never
pops the stack entry pushed by `#if os(iOS)`. -/
theorem c2_final_state_not_empty :
    (runV2 0 [] (splitNl ("#if os(iOS)\nA\n#else\nC\n#endif").data)).2 =
      (0, ["ios"]) ∧ (["ios"] : List String) ≠ [] := by
  constructor
  · decide
  · decide

/-- C3 (counterexample): the output of the refined filter can contain a
line matching a conditional-compilation directive pattern; a lone
`#if os(watchOS)` line is emitted verbatim. -/
theorem c3_counterexample :
    (splitNl (remove_macos_blocks "#if os(watchOS)").data).any
      isDirectiveLine = true := by
  decide

/-- C3 (amended): no line emitted by the refined state machine matches
any of the five directive patterns the filter actually recognizes
(`#if os(macOS)`, `#if os(iOS)`, `#elseif os(macOS)`, `#else`, `#endif`);
directive lines outside these five forms can leak into the output. -/
theorem c3_amended :
    ∀ (ls : List (List Char)) (sk : Nat) (stack : List String) (l : List Char),
      l ∈ (runV2 sk stack ls).1 →
        reIfMacOS l = false ∧ reIfIOS l = false ∧ reElseifMacOS l = false ∧
          reElse l = false ∧ reEndif l = false :=
  fun ls => runV2_out_clean ls

/-- Witness for C3 (amended) at a concrete input. -/
theorem c3_amended_witness :
    reIfMacOS ['A'] = false ∧ reIfIOS ['A'] = false ∧
      reElseifMacOS ['A'] = false ∧ reElse ['A'] = false ∧
      reEndif ['A'] = false :=
  c3_amended [['A']] 0 [] ['A'] (by decide)

/-- C4 (counterexample): the refined filter emits a `#if !os(macOS)`
directive line verbatim instead of dropping it. -/
theorem c4_counterexample :
    (splitNl (remove_macos_blocks "#if !os(macOS)\nA\n#endif").data).any
      reIfNotMacOS = true := by
  decide

/-- C4 (amended): only the first implementation handles
`#if !os(macOS)`: `remove_macos_conditionals` never emits a line matching
`^\s*#if\s+!os\(macOS\)` (the body still being emitted whenever the skip
depth is 0), while the refined `remove_macos_blocks` emits such an
opening line verbatim when it is not inside a skipped region. -/
theorem c4_amended :
    ∀ (ls : List (List Char)) (sk : Nat) (ios : Bool) (iosd : Nat)
      (l : List Char),
      l ∈ (runV1 sk ios iosd ls).1 → reIfNotMacOS l = false :=
  fun ls => runV1_out_no_ifNotMacOS ls

/-- Witness for C4 (amended) at a concrete input. -/
theorem c4_amended_witness : reIfNotMacOS ['A'] = false :=
  c4_amended [['A']] 0 false 0 ['A'] (by decide)

/-- C5 (counterexample): the full filter (line filtering followed by the
orphaned-import post-pass) is not idempotent: deleting `import AppKit\n`
from the
middle of a line of `#import AppKit\nendif` splices the remaining text
into the new directive line `#endif`, which a second pass then removes. -/
theorem c5_counterexample :
    processContent (processContent "#import AppKit\nendif") ≠
      processContent "#import AppKit\nendif" := by
  decide

/-- C5 (amended): the line-filtering stage alone is idempotent — running
`remove_macos_blocks` on its own output returns that output unchanged —
but the composition with the import post-pass is not. -/
theorem c5_amended (s : String) :
    remove_macos_blocks (remove_macos_blocks s) = remove_macos_blocks s :=
  congrArg String.mk (runV2_join_idem s.data)

/-- C6 (counterexample): the post-pass does not delete a whole matching
final line (the regex requires a trailing newline), and it does delete
text that is not a whole line, splicing the line remainders together. -/
theorem c6_counterexample :
    postPass "import AppKit" = "import AppKit" ∧
      postPass "foo import AppKit\nbar" = "foo bar" := by
  constructor
  · decide
  · decide

/-- C6 (amended): instead of deleting whole matching lines, the
post-pass deletes each leftmost occurrence of `import`, a nonempty
whitespace run, `AppKit`, and the following whitespace run up to and
including its last newline, then continues scanning after it.  Stated in
full generality: for any preceding text `u` in which no match starts, any
nonempty whitespace `w1`, any whitespace `w2`, and any following text `v`
whose leading whitespace contains no newline, the scan copies `u`,
deletes the occurrence (its final newline included), and proceeds on `v`
— so a matching whole line is deleted only together with a following
newline, a matching final line without one is retained (first
counterexample conjunct), and an occurrence need not respect line
boundaries (second counterexample conjunct). -/
theorem c6_amended (u w1 w2 v : List Char) (hne : w1 ≠ [])
    (h1 : w1.all isPySpace = true) (h2 : w2.all isPySpace = true)
    (hv : ∀ c ∈ v.takeWhile isPySpace, c ≠ '\n')
    (hu : ∀ i ∈ List.range u.length,
      matchImportAt (u.drop i ++
        (litImport ++ (w1 ++ (litAppKit ++ (w2 ++ '\n' :: v))))) = none) :
    subRun (u ++ (litImport ++ (w1 ++ (litAppKit ++ (w2 ++ '\n' :: v))))) =
      u ++ subRun v :=
  subRun_skip_prefix _ v (matchImportAt_occurrence w1 w2 v hne h1 h2 hv) u hu

/-- Witness for C6 (amended) at a concrete input: deleting the middle
line of `A`, `import AppKit`, `B`. -/
theorem c6_amended_witness :
    subRun (['A', '\n'] ++
        (litImport ++ ([' '] ++ (litAppKit ++ ([] ++ '\n' :: ['B']))))) =
      ['A', '\n'] ++ subRun ['B'] :=
  c6_amended ['A', '\n'] [' '] [] ['B'] (by decide) (by decide) (by decide)
    (by decide) (by decide)

/-- C7: a target-platform block is removed in its entirety (scenario:
`#if os(macOS)`, `A`, `#endif`, `B` filters to `B`), and inside a skipped
region every nested `#if` increments and every `#endif` decrements the
same skip counter while nothing is emitted, so emission cannot resume
before the outer block's matching `#endif`. -/
theorem c7_target_block_removed :
    remove_macos_blocks "#if os(macOS)\nA\n#endif\nB" = "B" ∧
      ∀ (sk : Nat) (stack : List String) (l : List Char), 0 < sk →
        stepV2 sk stack l =
          ([], if reIfAny l then sk + 1 else if reEndif l then sk - 1 else sk,
            stack) :=
  ⟨by decide, fun sk stack l hsk => stepV2_skip sk stack l hsk⟩

/-- Witness for C7 at a concrete skipped `#endif` line. -/
theorem c7_witness :
    stepV2 1 [] ['#', 'e', 'n', 'd', 'i', 'f'] =
      ([], if reIfAny ['#', 'e', 'n', 'd', 'i', 'f'] then 1 + 1
        else if reEndif ['#', 'e', 'n', 'd', 'i', 'f'] then 1 - 1 else 1,
        []) :=
  c7_target_block_removed.2 1 [] ['#', 'e', 'n', 'd', 'i', 'f'] (by decide)

/-- C8: the lines retained by the refined filter form a subsequence of
the input's line sequence: no duplication, no modification, no
reordering. -/
theorem c8_output_is_subsequence (s : String) :
    List.Sublist (runV2 0 [] (splitNl s.data)).1 (splitNl s.data) :=
  runV2_out_sublist (splitNl s.data) 0 []

/-- Witness for C9 at a concrete stray `#endif` line. -/
theorem c9_witness : stepV2 0 [] ['#', 'e', 'n', 'd', 'i', 'f'] = ([], 0, []) :=
  c9_stray_directive_silently_dropped ['#', 'e', 'n', 'd', 'i', 'f']
    (Or.inr (Or.inr (by decide)))

/-- C10: the two implementations are not extensionally equal: on the
single line `#if !os(macOS)` the first filter deletes the directive while
the refined filter emits it verbatim. -/
theorem c10_implementations_differ :
    remove_macos_conditionals "#if !os(macOS)" ≠
      remove_macos_blocks "#if !os(macOS)" := by
  decide
